/-
Verification of the aggregation / export core of openvasreporting
(`openvasreporting/libs/export.py`), as a shallow embedding in Lean 4.

The embedding follows the Python source closely:
  * `_get_collections` (lines 41-79) becomes `get_collections`;
    Python's in-place `list.sort` (a stable sort) is modelled by the stable
    `List.insertionSort` from Mathlib applied twice (name ascending, then
    cvss descending), and the in-place mutation is made explicit by the
    returned `vuln_info` field, which is the caller's list after the call.
  * `Counter` objects become insertion-ordered association lists
    (`List (String × Nat)`), matching Python dicts: `c[k] += n` bumps the
    first entry with key `k` or appends a fresh entry at the end, and
    lookup of a missing key yields 0.
  * The per-vulnerability loop (lines 64-73) can raise a `TypeError`
    (indexing a list with `None` when `level_choices.get` misses), so it is
    embedded in the `Option` monad via an explicit fold (`foldO`).
  * `export_to_csv_by_vuln` (lines 692-756) becomes a row-list producer in
    `Option` (`none` = a raised exception; the constant header row is not
    modelled).
  * The `isinstance` guard blocks of the exporters are modelled over a
    small universe of Python values (`PyVal` / `PyObj`).
-/
import Mathlib

namespace OpenvasReporting

/-! ## Data model (parsed_data entities, as used by export.py) -/

structure Port where
  number : Nat
  protocol : String
  result : String := ""
deriving DecidableEq, Repr

structure Host where
  ip : String
  host_name : String := ""
deriving DecidableEq, Repr

structure Vulnerability where
  name : String
  cvss : Rat := 0
  level : String := "none"
  family : String := ""
  description : String := ""
  detect : String := ""
  insight : String := ""
  impact : String := ""
  affected : String := ""
  solution : String := ""
  solution_type : String := ""
  vuln_id : String := ""
  cves : List String := []
  references : List String := []
  hosts : List (Host × Option Port) := []
deriving DecidableEq, Repr

/-! ## The two-key sort (export.py lines 55-56)

`vuln_info.sort(key=lambda key: key.name)` followed by
`vuln_info.sort(key=lambda key: key.cvss, reverse=True)`.
Python's `list.sort` is a stable sort; with `reverse=True` it is a stable
sort by the reversed comparison.  Both passes are modelled by the stable
`List.insertionSort`. -/

/-- Lexicographic comparison of character lists: Python compares strings by
code points, lexicographically. -/
def charsLeB : List Char → List Char → Bool
  | [], _ => true
  | _ :: _, [] => false
  | x :: xs, y :: ys => if x < y then true else if y < x then false else charsLeB xs ys

/-- `a.name <= b.name`, the comparison underlying `sort(key=lambda key: key.name)`. -/
def nameLe (a b : Vulnerability) : Prop := charsLeB a.name.data b.name.data = true

def cvssGe (a b : Vulnerability) : Prop := b.cvss ≤ a.cvss

/-- The combined order actually realised by the two stable passes:
cvss strictly descending, ties broken by name ascending. -/
def lexLe (a b : Vulnerability) : Prop :=
  b.cvss < a.cvss ∨ (a.cvss = b.cvss ∧ nameLe a b)

instance : DecidableRel nameLe := fun a b =>
  inferInstanceAs (Decidable (charsLeB a.name.data b.name.data = true))

instance : DecidableRel cvssGe := fun a b =>
  inferInstanceAs (Decidable (b.cvss ≤ a.cvss))

instance : DecidableRel lexLe := fun a b =>
  inferInstanceAs (Decidable (b.cvss < a.cvss ∨ (a.cvss = b.cvss ∧ nameLe a b)))

def sortVulns (l : List Vulnerability) : List Vulnerability :=
  List.insertionSort cvssGe (List.insertionSort nameLe l)

/-! ## Counters (collections.Counter over string keys) -/

abbrev Counter := List (String × Nat)

/-- `c[k]` — lookup with default 0, first matching entry. -/
def counterGet : Counter → String → Nat
  | [], _ => 0
  | (k', m) :: rest, k => if k' = k then m else counterGet rest k

/-- `c[k] += n` — bump the first entry with key `k`, else append at the end
(Python dicts preserve insertion order). -/
def counterAdd : Counter → String → Nat → Counter
  | [], k, n => [(k, n)]
  | (k', m) :: rest, k, n =>
      if k' = k then (k', m + n) :: rest else (k', m) :: counterAdd rest k n

/-- `c[k] = n` — overwrite the first entry with key `k`, else append. -/
def counterSet : Counter → String → Nat → Counter
  | [], k, n => [(k, n)]
  | (k', m) :: rest, k, n =>
      if k' = k then (k', n) :: rest else (k', m) :: counterSet rest k n

/-- `sum(c.values())`. -/
def counterSum (c : Counter) : Nat := (c.map Prod.snd).sum

/-! ## The aggregation (`_get_collections`, export.py lines 41-79) -/

/-- `str.lower()`, character by character (equivalent to `String.toLower`,
spelled out over the character list). -/
def strLower (s : String) : String := ⟨s.data.map Char.toLower⟩

/-- `vuln.level.lower()`. -/
def lvlKey (v : Vulnerability) : String := strLower v.level

/-- `level_choices = {'critical': 0, 'high': 1, 'medium': 2, 'low': 3, 'none': 4}`
accessed with `.get`, which yields `None` on a missing key (line 62, 67). -/
def levelChoices (s : String) : Option (Fin 5) :=
  if s = "critical" then some 0
  else if s = "high" then some 1
  else if s = "medium" then some 2
  else if s = "low" then some 3
  else if s = "none" then some 4
  else none

/-- Modelled from the spec: `Config.levels()` lives in `config.py`, which is
absent from the sources; per the spec, Level ranges over exactly
{critical, high, medium, low, none}. -/
def configLevels : List String := ["critical", "high", "medium", "low", "none"]

/-- Append-if-new, the dedup step of lines 70-71:
`if host.ip not in lst: lst.append(host.ip)`. -/
def addFirst (acc : List String) (s : String) : List String :=
  if s ∈ acc then acc else acc ++ [s]

/-- The host IPs of a vulnerability's occurrence list, in order. -/
def vIPs (v : Vulnerability) : List String := v.hosts.map (fun hp => hp.1.ip)

/-- Mutable state of the loop in lines 64-73: the two running counters and
`vuln_hostcount_by_level`, the five per-level dedup lists. -/
structure AggState where
  levels : Counter
  family : Counter
  hostlists : Fin 5 → List String

def initAggState : AggState := ⟨[], [], fun _ => []⟩

/-- One iteration of the loop body (lines 65-73).  When
`level_choices.get(vuln.level.lower())` is `None` and the vulnerability has
at least one (host, port) occurrence, line 70 indexes a list with `None`
and raises `TypeError` (modelled as `none`); with no occurrences the inner
loop body never runs and the vulnerability is still counted. -/
def stepVuln (st : AggState) (v : Vulnerability) : Option AggState :=
  let levels1 := counterAdd st.levels (lvlKey v) 1
  match levelChoices (lvlKey v) with
  | some i =>
      some { levels := levels1,
             family := counterAdd st.family v.family 1,
             hostlists :=
               Function.update st.hostlists i ((vIPs v).foldl addFirst (st.hostlists i)) }
  | none =>
      if v.hosts = [] then
        some { levels := levels1,
               family := counterAdd st.family v.family 1,
               hostlists := st.hostlists }
      else none

/-- Fold over the vulnerability list with exception propagation: the Python
loop aborts (the exception escapes `_get_collections`) at the first failing
iteration. -/
def foldO (f : AggState → Vulnerability → Option AggState) :
    AggState → List Vulnerability → Option AggState
  | st, [] => some st
  | st, v :: vs =>
      match f st v with
      | none => none
      | some st' => foldO f st' vs

/-- Lines 76-77: `vuln_host_by_level[level] = len(lists[level_choices.get(level.lower())])`
for each configured level.  All modelled config levels hit the `some` branch. -/
def get_host_counter (hl : Fin 5 → List String) : Counter :=
  configLevels.foldl
    (fun c level =>
      (levelChoices (strLower level)).elim c (fun i => counterSet c level (hl i).length))
    []

/-- The tuple returned by `_get_collections`.  `vuln_info` is the caller's
list after the call: `list.sort` reorders it in place, and the function
returns that same list object. -/
structure Collections where
  vuln_info : List Vulnerability
  vuln_levels : Counter
  vuln_host_by_level : Counter
  vuln_by_family : Counter
deriving DecidableEq, Repr

/-- `_get_collections` (export.py lines 41-79). `none` models a raised
exception. -/
def get_collections (vuln_info : List Vulnerability) : Option Collections :=
  match foldO stepVuln initAggState (sortVulns vuln_info) with
  | none => none
  | some st =>
      some ⟨sortVulns vuln_info, st.levels, get_host_counter st.hostlists, st.family⟩

/-! ## `export_to_csv_by_vuln` (export.py lines 692-756)

The writer emits, after a constant header, one row per (host, port)
occurrence of each vulnerability in sorted order (lines 734-756).  The row
dict reads `port.number` and `port.protocol` unconditionally, so an
occurrence whose port is `None` raises `AttributeError` (modelled by
`none`); the Excel exporter (line 369) and Word exporter (line 682) guard
this with an `if port` branch instead. -/

structure CsvRow where
  hostname : String
  ip : String
  port : Nat
  protocol : String
  vulnerability : String
  cvss : Rat
  threat : String
  family : String
  description : String
  detection : String
  insight : String
  impact : String
  affected : String
  solution : String
  solution_type : String
  vuln_id : String
  cve : String
  references : String
deriving DecidableEq, Repr

/-- The `rowdata` dict of lines 736-755. -/
def csvRowOf (v : Vulnerability) (h : Host) (p : Port) : CsvRow :=
  { hostname := h.host_name
    ip := h.ip
    port := p.number
    protocol := p.protocol
    vulnerability := v.name
    cvss := v.cvss
    threat := v.level
    family := v.family
    description := v.description
    detection := v.detect
    insight := v.insight
    impact := v.impact
    affected := v.affected
    solution := v.solution
    solution_type := v.solution_type
    vuln_id := v.vuln_id
    cve := String.intercalate " - " v.cves
    references := String.intercalate " - " v.references }

/-- Build the row of one `(host, port)` occurrence; a `None` port raises. -/
def rowOfOccurrence (v : Vulnerability) (hp : Host × Option Port) : Option CsvRow :=
  match hp.2 with
  | some p => some (csvRowOf v hp.1 p)
  | none => none

/-- `List.mapM` over `Option`, spelled out by recursion: the first failing
element aborts the whole traversal (the exception escapes the loop). -/
def mapO (f : α → Option β) : List α → Option (List β)
  | [] => some []
  | x :: xs =>
      match f x with
      | none => none
      | some y =>
          match mapO f xs with
          | none => none
          | some ys => some (y :: ys)

/-- The data rows written by `export_to_csv_by_vuln` (lines 724-756), or
`none` when the call raises: first `_get_collections` runs (line 724), then
the nested loop of lines 734-756 emits one row per occurrence of each
vulnerability in sorted order. -/
def export_to_csv_by_vuln (vuln_info : List Vulnerability) : Option (List CsvRow) :=
  (get_collections vuln_info).bind (fun c =>
    Option.map List.flatten (mapO (fun v => mapO (rowOfOccurrence v) v.hosts) c.vuln_info))

/-! ## The `isinstance` guard blocks of the exporters

A small universe of Python runtime values, enough to express the guards. -/

inductive PyObj where
  | vuln (v : Vulnerability)
  | host (h : Host)
  | str (s : String)
deriving DecidableEq, Repr

inductive PyVal where
  | list (xs : List PyObj)
  | tree (entries : List (String × PyObj))
  | str (s : String)
deriving DecidableEq, Repr

def PyObj.isVuln : PyObj → Bool
  | .vuln _ => true
  | _ => false

def PyObj.isHost : PyObj → Bool
  | .host _ => true
  | _ => false

/-- Modelled from the spec: `ResultTree` (`parsed_data.py`, absent from the
sources) is per the spec a mapping from synthetic per-host keys to Hosts;
iterating a Python mapping yields its keys, which are strings. -/
def treeIter (entries : List (String × PyObj)) : List PyObj :=
  entries.map (fun e => PyObj.str e.1)

/-- Guard of `export_to_excel_by_vuln` (lines 99-104): `true` iff the call
raises `TypeError` — the input is not a list, or some element is not a
`Vulnerability`. -/
def excel_by_vuln_raises (x : PyVal) : Bool :=
  match x with
  | .list xs => xs.any (fun o => !o.isVuln)
  | _ => true

/-- Guard of `export_to_csv_by_host` (lines 1210-1215): `for x in resulttree`
iterates the mapping itself, so `x` ranges over the string keys, and
`isinstance(x, Host)` is checked against those keys. -/
def csv_by_host_raises (x : PyVal) : Bool :=
  match x with
  | .tree entries => (treeIter entries).any (fun o => !o.isHost)
  | _ => true

/-! ## Spec-side definitions (for stating the claims' properties) -/

/-- Order of first appearance of the values in a list. -/
def firstSeen (xs : List String) : List String := xs.foldl addFirst []

/-- The IP occurrences of the vulnerabilities classified at (lowercased)
level `L`, in order. -/
def ipsOfLevel (l : List Vulnerability) (L : String) : List String :=
  (l.filter (fun v => decide (lvlKey v = L))).flatMap vIPs

/-- The set of distinct host IPs with at least one occurrence of a
vulnerability classified at level `L`. -/
def affectedIPs (l : List Vulnerability) (L : String) : Finset String :=
  (ipsOfLevel l L).toFinset

/-- The set of all distinct host IPs appearing in the input. -/
def allIPs (l : List Vulnerability) : Finset String :=
  (l.flatMap vIPs).toFinset

/-- The per-level dedup lists of the aggregation loop, indexed by
`level_choices`: the occurrence IPs of the vulnerabilities whose level maps
to index `i`. -/
def ipsAt (i : Fin 5) (l : List Vulnerability) : List String :=
  (l.filter (fun v => decide (levelChoices (lvlKey v) = some i))).flatMap vIPs

/-! ## Concrete sample data (used as witness inputs) -/

def hostA : Host := ⟨"10.0.0.1", "host1"⟩

def hostB : Host := ⟨"10.0.0.2", "host2"⟩

def portT : Port := ⟨80, "tcp", ""⟩

def vulnA : Vulnerability :=
  { name := "A", cvss := 9, level := "critical", family := "F",
    hosts := [(hostA, some portT), (hostA, some portT)] }

def vulnB : Vulnerability :=
  { name := "B", cvss := 9, level := "critical", family := "G",
    hosts := [(hostB, some portT)] }

def vulnC : Vulnerability :=
  { name := "C", cvss := 2, level := "Low", family := "F",
    hosts := [(hostA, some portT)] }

/-- A vulnerability whose level is not one of the five names and which has an
occurrence. -/
def vulnBadHosted : Vulnerability :=
  { name := "X", cvss := 5, level := "weird", hosts := [(hostA, some portT)] }

/-- A vulnerability whose level is not one of the five names and which has no
occurrences. -/
def vulnBadBare : Vulnerability :=
  { name := "Y", cvss := 5, level := "weird" }

/-- A vulnerability with an occurrence whose port is absent. -/
def vulnNoPort : Vulnerability :=
  { name := "Z", cvss := 3, level := "low", family := "F", hosts := [(hostA, none)] }

/-- The aggregation result for the input `[vulnC, vulnA, vulnB]`. -/
def aggCAB : Collections :=
  ⟨[vulnA, vulnB, vulnC], [("critical", 2), ("low", 1)],
   [("critical", 2), ("high", 0), ("medium", 0), ("low", 1), ("none", 0)],
   [("F", 2), ("G", 1)]⟩

/-- The aggregation result for the input `[vulnA]`. -/
def aggA : Collections :=
  ⟨[vulnA], [("critical", 1)],
   [("critical", 1), ("high", 0), ("medium", 0), ("low", 0), ("none", 0)],
   [("F", 1)]⟩

/-- The aggregation result for the input `[vulnC, vulnA]`. -/
def aggCA : Collections :=
  ⟨[vulnA, vulnC], [("critical", 1), ("low", 1)],
   [("critical", 1), ("high", 0), ("medium", 0), ("low", 1), ("none", 0)],
   [("F", 2)]⟩

/-- The aggregation result for the input `[vulnBadBare]`. -/
def aggBadBare : Collections :=
  ⟨[vulnBadBare], [("weird", 1)],
   [("critical", 0), ("high", 0), ("medium", 0), ("low", 0), ("none", 0)],
   [("", 1)]⟩

/-! ## Order lemmas for the name comparison -/

theorem charsLeB_total : ∀ xs ys : List Char, charsLeB xs ys = true ∨ charsLeB ys xs = true
  | [], _ => Or.inl rfl
  | _ :: _, [] => Or.inr rfl
  | x :: xs, y :: ys => by
      by_cases h1 : x < y
      · exact Or.inl (by simp [charsLeB, h1])
      · by_cases h2 : y < x
        · exact Or.inr (by simp [charsLeB, h2])
        · rcases charsLeB_total xs ys with h | h
          · exact Or.inl (by simp [charsLeB, h1, h2, h])
          · exact Or.inr (by simp [charsLeB, h1, h2, h])

theorem charsLeB_trans :
    ∀ xs ys zs : List Char,
      charsLeB xs ys = true → charsLeB ys zs = true → charsLeB xs zs = true
  | [], _, _, _, _ => rfl
  | _ :: _, [], _, h1, _ => by simp [charsLeB] at h1
  | _ :: _, _ :: _, [], _, h2 => by simp [charsLeB] at h2
  | x :: xs, y :: ys, z :: zs, h1, h2 => by
      by_cases hxy : x < y
      · by_cases hyz : y < z
        · simp [charsLeB, lt_trans hxy hyz]
        · by_cases hzy : z < y
          · simp [charsLeB, hyz, hzy] at h2
          · have hyzeq : y = z := le_antisymm (not_lt.1 hzy) (not_lt.1 hyz)
            simp [charsLeB, hyzeq ▸ hxy]
      · by_cases hyx : y < x
        · simp [charsLeB, hxy, hyx] at h1
        · have hxyeq : x = y := le_antisymm (not_lt.1 hyx) (not_lt.1 hxy)
          have h1' : charsLeB xs ys = true := by simpa [charsLeB, hxy, hyx] using h1
          by_cases hyz : y < z
          · simp [charsLeB, hxyeq ▸ hyz]
          · by_cases hzy : z < y
            · simp [charsLeB, hyz, hzy] at h2
            · have hyzeq : y = z := le_antisymm (not_lt.1 hzy) (not_lt.1 hyz)
              have h2' : charsLeB ys zs = true := by simpa [charsLeB, hyz, hzy] using h2
              have hxz : ¬ x < z := by rw [hxyeq, hyzeq]; exact lt_irrefl z
              have hzx : ¬ z < x := by rw [hxyeq, hyzeq]; exact lt_irrefl z
              simp [charsLeB, hxz, hzx, charsLeB_trans xs ys zs h1' h2']

theorem nameLe_trans {a b c : Vulnerability} (h1 : nameLe a b) (h2 : nameLe b c) :
    nameLe a c :=
  charsLeB_trans _ _ _ h1 h2

instance : IsTotal Vulnerability nameLe := ⟨fun _ _ => charsLeB_total _ _⟩

instance : IsTrans Vulnerability nameLe := ⟨fun _ _ _ => nameLe_trans⟩

instance : IsTotal Vulnerability lexLe := by
  constructor
  intro a b
  rcases lt_trichotomy b.cvss a.cvss with h | h | h
  · exact Or.inl (Or.inl h)
  · rcases charsLeB_total a.name.data b.name.data with hn | hn
    · exact Or.inl (Or.inr ⟨h.symm, hn⟩)
    · exact Or.inr (Or.inr ⟨h, hn⟩)
  · exact Or.inr (Or.inl h)

instance : IsTrans Vulnerability lexLe := by
  constructor
  rintro a b c (h1 | ⟨e1, n1⟩) (h2 | ⟨e2, n2⟩)
  · exact Or.inl (lt_trans h2 h1)
  · exact Or.inl (by rw [← e2]; exact h1)
  · exact Or.inl (by rw [e1]; exact h2)
  · exact Or.inr ⟨e1.trans e2, nameLe_trans n1 n2⟩

/-! ## The two stable passes realise the lexicographic order -/

theorem orderedInsert_cvssGe_eq_lex (x : Vulnerability) :
    ∀ S : List Vulnerability, (∀ z ∈ S, nameLe x z) →
      List.orderedInsert cvssGe x S = List.orderedInsert lexLe x S
  | [], _ => rfl
  | z :: S', h => by
      have hxz : nameLe x z := h z (List.mem_cons_self z S')
      by_cases hc : cvssGe x z
      · have hl : lexLe x z := by
          rcases lt_or_eq_of_le hc with h' | h'
          · exact Or.inl h'
          · exact Or.inr ⟨h'.symm, hxz⟩
        rw [List.orderedInsert, List.orderedInsert, if_pos hc, if_pos hl]
      · have hl : ¬ lexLe x z := by
          rintro (h' | ⟨h', _⟩)
          · exact hc (le_of_lt h')
          · exact hc (le_of_eq h'.symm)
        rw [List.orderedInsert, List.orderedInsert, if_neg hc, if_neg hl,
          orderedInsert_cvssGe_eq_lex x S' (fun z' hz' => h z' (List.mem_cons_of_mem _ hz'))]

theorem orderedInsert_swap (x y : Vulnerability) (hxy : ¬ nameLe x y) :
    ∀ T : List Vulnerability,
      List.orderedInsert cvssGe y (List.orderedInsert lexLe x T)
        = List.orderedInsert lexLe x (List.orderedInsert cvssGe y T)
  | [] => by
      by_cases hc : cvssGe y x
      · have hl : ¬ lexLe x y := by
          rintro (h' | ⟨h', hn⟩)
          · exact absurd hc (not_le.2 h')
          · exact hxy hn
        simp [List.orderedInsert, hc, hl]
      · have hl : lexLe x y := Or.inl (not_le.1 hc)
        simp [List.orderedInsert, hc, hl]
  | z :: T' => by
      by_cases c1 : lexLe x z
      · by_cases c2 : cvssGe y z
        · by_cases hc : cvssGe y x
          · have hl : ¬ lexLe x y := by
              rintro (h' | ⟨h', hn⟩)
              · exact absurd hc (not_le.2 h')
              · exact hxy hn
            simp [List.orderedInsert, c1, c2, hc, hl]
          · have hl : lexLe x y := Or.inl (not_le.1 hc)
            simp [List.orderedInsert, c1, c2, hc, hl]
        · have hzx : z.cvss ≤ x.cvss := by
            rcases c1 with h' | ⟨h', _⟩
            · exact le_of_lt h'
            · exact le_of_eq h'.symm
          have hc : ¬ cvssGe y x :=
            not_le.2 (lt_of_lt_of_le (not_le.1 c2) hzx)
          simp [List.orderedInsert, c1, c2, hc]
      · by_cases c2 : cvssGe y z
        · have hxz : x.cvss ≤ z.cvss := by
            by_contra hlt
            exact c1 (Or.inl (not_le.1 hlt))
          have hc : cvssGe y x := le_trans hxz c2
          have hl : ¬ lexLe x y := by
            rintro (h' | ⟨h', hn⟩)
            · exact absurd hc (not_le.2 h')
            · exact hxy hn
          simp [List.orderedInsert, c1, c2, hc, hl]
        · simp [List.orderedInsert, c1, c2, orderedInsert_swap x y hxy T']

theorem insertionSort_orderedInsert_comm (x : Vulnerability) :
    ∀ M : List Vulnerability, List.Sorted nameLe M →
      List.insertionSort cvssGe (List.orderedInsert nameLe x M)
        = List.orderedInsert lexLe x (List.insertionSort cvssGe M)
  | [], _ => rfl
  | y :: N, hs => by
      by_cases h : nameLe x y
      · rw [List.orderedInsert, if_pos h]
        simp only [List.insertionSort]
        apply orderedInsert_cvssGe_eq_lex
        intro z hz
        rcases List.mem_cons.1 ((List.mem_insertionSort cvssGe).1 hz) with rfl | hzN
        · exact h
        · exact nameLe_trans h (List.rel_of_sorted_cons hs z hzN)
      · rw [List.orderedInsert, if_neg h]
        simp only [List.insertionSort]
        rw [insertionSort_orderedInsert_comm x N hs.of_cons, orderedInsert_swap x y h]

theorem sortVulns_eq_lex (l : List Vulnerability) :
    sortVulns l = List.insertionSort lexLe l := by
  induction l with
  | nil => rfl
  | cons x xs ih =>
      unfold sortVulns at ih ⊢
      simp only [List.insertionSort]
      rw [insertionSort_orderedInsert_comm x _ (List.sorted_insertionSort nameLe xs), ih]

theorem sortVulns_perm (l : List Vulnerability) : List.Perm (sortVulns l) l := by
  rw [sortVulns_eq_lex]
  exact List.perm_insertionSort lexLe l

theorem sortVulns_sorted (l : List Vulnerability) : List.Sorted lexLe (sortVulns l) := by
  rw [sortVulns_eq_lex]
  exact List.sorted_insertionSort lexLe l

/-! ## Counter lemmas -/

theorem counterGet_counterAdd (c : Counter) (k s : String) (n : Nat) :
    counterGet (counterAdd c k n) s = counterGet c s + (if k = s then n else 0) := by
  induction c with
  | nil => by_cases h : k = s <;> simp [counterAdd, counterGet, h]
  | cons e rest ih =>
      obtain ⟨k', m⟩ := e
      by_cases h1 : k' = k
      · subst h1
        by_cases h2 : k' = s <;> simp [counterAdd, counterGet, h2]
      · by_cases h2 : k' = s
        · have hks : k ≠ s := fun hh => h1 (h2.trans hh.symm)
          have hsk : s ≠ k := fun hh => hks hh.symm
          simp [counterAdd, counterGet, h1, h2, hks, hsk]
        · simp [counterAdd, counterGet, h1, h2, ih]

theorem counterSum_counterAdd (c : Counter) (k : String) (n : Nat) :
    counterSum (counterAdd c k n) = counterSum c + n := by
  induction c with
  | nil => simp [counterAdd, counterSum]
  | cons e rest ih =>
      obtain ⟨k', m⟩ := e
      by_cases h1 : k' = k
      · simp [counterAdd, counterSum, h1]
        omega
      · simp only [counterAdd, if_neg h1, counterSum, List.map_cons, List.sum_cons]
        simp only [counterSum] at ih
        omega

theorem counterKeys_counterAdd (c : Counter) (k : String) (n : Nat) :
    (counterAdd c k n).map Prod.fst = addFirst (c.map Prod.fst) k := by
  induction c with
  | nil => simp [counterAdd, addFirst]
  | cons e rest ih =>
      obtain ⟨k', m⟩ := e
      by_cases h1 : k' = k
      · subst h1
        simp [counterAdd, addFirst]
      · have h1' : k ≠ k' := fun h => h1 h.symm
        by_cases h2 : k ∈ rest.map Prod.fst
        · simp [counterAdd, addFirst, h1, h1', h2, ih]
        · simp [counterAdd, addFirst, h1, h1', h2, ih]

theorem counterGet_foldAdd (keys : List String) (c0 : Counter) (s : String) :
    counterGet (keys.foldl (fun c k => counterAdd c k 1) c0) s
      = counterGet c0 s + keys.countP (fun k => decide (k = s)) := by
  induction keys generalizing c0 with
  | nil => simp
  | cons k ks ih =>
      rw [List.foldl_cons, ih, counterGet_counterAdd, List.countP_cons]
      by_cases h : k = s
      · simp [h]
        omega
      · simp [h]

theorem counterSum_foldAdd (keys : List String) (c0 : Counter) :
    counterSum (keys.foldl (fun c k => counterAdd c k 1) c0)
      = counterSum c0 + keys.length := by
  induction keys generalizing c0 with
  | nil => simp
  | cons k ks ih =>
      rw [List.foldl_cons, ih, counterSum_counterAdd, List.length_cons]
      omega

theorem counterKeys_foldAdd (keys : List String) (c0 : Counter) :
    (keys.foldl (fun c k => counterAdd c k 1) c0).map Prod.fst
      = keys.foldl addFirst (c0.map Prod.fst) := by
  induction keys generalizing c0 with
  | nil => rfl
  | cons k ks ih =>
      rw [List.foldl_cons, ih, counterKeys_counterAdd, List.foldl_cons]

/-! ## Dedup-list lemmas -/

theorem addFirst_toFinset (acc : List String) (s : String) :
    (addFirst acc s).toFinset = insert s acc.toFinset := by
  by_cases h : s ∈ acc
  · simp only [addFirst, if_pos h]
    exact (Finset.insert_eq_self.2 (List.mem_toFinset.2 h)).symm
  · simp only [addFirst, if_neg h, List.toFinset_append]
    simp [Finset.union_comm, Finset.insert_eq]

theorem foldl_addFirst_toFinset (xs : List String) :
    ∀ acc : List String, (xs.foldl addFirst acc).toFinset = acc.toFinset ∪ xs.toFinset := by
  induction xs with
  | nil => simp
  | cons x xs ih =>
      intro acc
      rw [List.foldl_cons, ih, addFirst_toFinset, List.toFinset_cons,
        Finset.insert_union, Finset.union_insert]

theorem foldl_addFirst_nodup (xs : List String) :
    ∀ acc : List String, acc.Nodup → (xs.foldl addFirst acc).Nodup := by
  induction xs with
  | nil => exact fun acc h => h
  | cons x xs ih =>
      intro acc h
      rw [List.foldl_cons]
      apply ih
      by_cases hm : x ∈ acc
      · simpa [addFirst, hm] using h
      · simp [addFirst, hm, List.nodup_append, h]

theorem foldl_addFirst_length (xs : List String) :
    (xs.foldl addFirst []).length = xs.toFinset.card := by
  have nd : (xs.foldl addFirst []).Nodup := foldl_addFirst_nodup xs [] List.nodup_nil
  have tf : (xs.foldl addFirst []).toFinset = xs.toFinset := by
    rw [foldl_addFirst_toFinset]
    simp
  rw [← List.toFinset_card_of_nodup nd, tf]

/-! ## Characterisation of the aggregation loop -/

theorem foldO_char :
    ∀ (l₀ : List Vulnerability) (st st' : AggState),
      foldO stepVuln st l₀ = some st' →
        st'.levels = (l₀.map lvlKey).foldl (fun c k => counterAdd c k 1) st.levels ∧
        st'.family = (l₀.map (fun v => v.family)).foldl (fun c k => counterAdd c k 1) st.family ∧
        ∀ i, st'.hostlists i = (ipsAt i l₀).foldl addFirst (st.hostlists i)
  | [], st, st', h => by
      obtain rfl : st = st' := by simpa [foldO] using h
      refine ⟨rfl, rfl, fun i => ?_⟩
      simp [ipsAt]
  | v :: vs, st, st', h => by
      rw [foldO] at h
      cases hlc : levelChoices (lvlKey v) with
      | some j =>
          rw [stepVuln, hlc] at h
          simp only at h
          obtain ⟨h1, h2, h3⟩ := foldO_char vs _ st' h
          refine ⟨?_, ?_, ?_⟩
          · simpa using h1
          · simpa using h2
          · intro i
            rw [h3 i]
            by_cases hij : i = j
            · subst hij
              have hfil :
                  List.filter (fun w => decide (levelChoices (lvlKey w) = some i)) (v :: vs)
                    = v :: List.filter (fun w => decide (levelChoices (lvlKey w) = some i)) vs :=
                List.filter_cons_of_pos (by simp [hlc])
              simp only [ipsAt, hfil, List.flatMap_cons, List.foldl_append, Function.update_same]
            · have hfil :
                  List.filter (fun w => decide (levelChoices (lvlKey w) = some i)) (v :: vs)
                    = List.filter (fun w => decide (levelChoices (lvlKey w) = some i)) vs :=
                List.filter_cons_of_neg
                  (by have hji : ¬ ((some j : Option (Fin 5)) = some i) :=
                        fun h => hij (Option.some.inj h).symm
                      simp [hlc, hji])
              simp only [ipsAt, hfil, Function.update_noteq hij]
      | none =>
          rw [stepVuln, hlc] at h
          by_cases hh : v.hosts = []
          · rw [if_pos hh] at h
            simp only at h
            obtain ⟨h1, h2, h3⟩ := foldO_char vs _ st' h
            refine ⟨?_, ?_, ?_⟩
            · simpa using h1
            · simpa using h2
            · intro i
              rw [h3 i]
              have hfil :
                  List.filter (fun w => decide (levelChoices (lvlKey w) = some i)) (v :: vs)
                    = List.filter (fun w => decide (levelChoices (lvlKey w) = some i)) vs :=
                List.filter_cons_of_neg (by simp [hlc])
              simp only [ipsAt, hfil]
          · rw [if_neg hh] at h
            exact absurd h (by simp)

theorem foldO_eq_none :
    ∀ (l₀ : List Vulnerability) (st : AggState),
      (foldO stepVuln st l₀ = none ↔
        ∃ v ∈ l₀, levelChoices (lvlKey v) = none ∧ v.hosts ≠ [])
  | [], st => by simp [foldO]
  | v :: vs, st => by
      rw [foldO]
      cases hlc : levelChoices (lvlKey v) with
      | some j =>
          rw [stepVuln, hlc]
          simp only
          rw [foldO_eq_none vs]
          constructor
          · rintro ⟨w, hw, hwc⟩
            exact ⟨w, List.mem_cons_of_mem _ hw, hwc⟩
          · rintro ⟨w, hw, hwc⟩
            rcases List.mem_cons.1 hw with rfl | hw'
            · rw [hlc] at hwc
              exact absurd hwc.1 (by simp)
            · exact ⟨w, hw', hwc⟩
      | none =>
          rw [stepVuln, hlc]
          by_cases hh : v.hosts = []
          · rw [if_pos hh]
            simp only
            rw [foldO_eq_none vs]
            constructor
            · rintro ⟨w, hw, hwc⟩
              exact ⟨w, List.mem_cons_of_mem _ hw, hwc⟩
            · rintro ⟨w, hw, hwc⟩
              rcases List.mem_cons.1 hw with rfl | hw'
              · exact absurd hh hwc.2
              · exact ⟨w, hw', hwc⟩
          · rw [if_neg hh]
            simp only [true_iff]
            exact ⟨v, List.mem_cons_self v vs, hlc, hh⟩

/-- Destructuring a successful `get_collections` call. -/
theorem get_collections_some {l : List Vulnerability} {r : Collections}
    (h : get_collections l = some r) :
    ∃ st, foldO stepVuln initAggState (sortVulns l) = some st ∧
      r.vuln_info = sortVulns l ∧
      r.vuln_levels = st.levels ∧
      r.vuln_host_by_level = get_host_counter st.hostlists ∧
      r.vuln_by_family = st.family := by
  unfold get_collections at h
  cases hf : foldO stepVuln initAggState (sortVulns l) with
  | none => rw [hf] at h; cases h
  | some st =>
      rw [hf] at h
      obtain rfl : (⟨sortVulns l, st.levels, get_host_counter st.hostlists, st.family⟩
          : Collections) = r := by
        simpa using h
      exact ⟨st, rfl, rfl, rfl, rfl, rfl⟩

/-! ## `levelChoices` characterisation -/

theorem levelChoices_some_cases (s : String) (i : Fin 5) (h : levelChoices s = some i) :
    (i = 0 ∧ s = "critical") ∨ (i = 1 ∧ s = "high") ∨ (i = 2 ∧ s = "medium") ∨
      (i = 3 ∧ s = "low") ∨ (i = 4 ∧ s = "none") := by
  unfold levelChoices at h
  split_ifs at h with h1 h2 h3 h4 h5
  · exact Or.inl ⟨(Option.some.inj h).symm, h1⟩
  · exact Or.inr (Or.inl ⟨(Option.some.inj h).symm, h2⟩)
  · exact Or.inr (Or.inr (Or.inl ⟨(Option.some.inj h).symm, h3⟩))
  · exact Or.inr (Or.inr (Or.inr (Or.inl ⟨(Option.some.inj h).symm, h4⟩)))
  · exact Or.inr (Or.inr (Or.inr (Or.inr ⟨(Option.some.inj h).symm, h5⟩)))

theorem levelChoices_critical (s : String) : levelChoices s = some 0 ↔ s = "critical" := by
  constructor
  · intro h
    rcases levelChoices_some_cases s 0 h with ⟨_, hs⟩ | ⟨hi, _⟩ | ⟨hi, _⟩ | ⟨hi, _⟩ | ⟨hi, _⟩
    · exact hs
    all_goals exact absurd hi (by decide)
  · rintro rfl
    rfl

theorem levelChoices_high (s : String) : levelChoices s = some 1 ↔ s = "high" := by
  constructor
  · intro h
    rcases levelChoices_some_cases s 1 h with ⟨hi, _⟩ | ⟨_, hs⟩ | ⟨hi, _⟩ | ⟨hi, _⟩ | ⟨hi, _⟩
    · exact absurd hi (by decide)
    · exact hs
    all_goals exact absurd hi (by decide)
  · rintro rfl
    rfl

theorem levelChoices_medium (s : String) : levelChoices s = some 2 ↔ s = "medium" := by
  constructor
  · intro h
    rcases levelChoices_some_cases s 2 h with ⟨hi, _⟩ | ⟨hi, _⟩ | ⟨_, hs⟩ | ⟨hi, _⟩ | ⟨hi, _⟩
    · exact absurd hi (by decide)
    · exact absurd hi (by decide)
    · exact hs
    all_goals exact absurd hi (by decide)
  · rintro rfl
    rfl

theorem levelChoices_low (s : String) : levelChoices s = some 3 ↔ s = "low" := by
  constructor
  · intro h
    rcases levelChoices_some_cases s 3 h with ⟨hi, _⟩ | ⟨hi, _⟩ | ⟨hi, _⟩ | ⟨_, hs⟩ | ⟨hi, _⟩
    · exact absurd hi (by decide)
    · exact absurd hi (by decide)
    · exact absurd hi (by decide)
    · exact hs
    · exact absurd hi (by decide)
  · rintro rfl
    rfl

theorem levelChoices_none_lvl (s : String) : levelChoices s = some 4 ↔ s = "none" := by
  constructor
  · intro h
    rcases levelChoices_some_cases s 4 h with ⟨hi, _⟩ | ⟨hi, _⟩ | ⟨hi, _⟩ | ⟨hi, _⟩ | ⟨_, hs⟩
    · exact absurd hi (by decide)
    · exact absurd hi (by decide)
    · exact absurd hi (by decide)
    · exact absurd hi (by decide)
    · exact hs
  · rintro rfl
    rfl

/-! ## Membership lemmas for the IP collections -/

theorem mem_ipsOfLevel {l : List Vulnerability} {L x : String} :
    x ∈ ipsOfLevel l L ↔ ∃ v, v ∈ l ∧ lvlKey v = L ∧ x ∈ vIPs v := by
  simp [ipsOfLevel, List.mem_flatMap, List.mem_filter, decide_eq_true_eq, and_assoc]

theorem mem_ipsAt {i : Fin 5} {l : List Vulnerability} {x : String} :
    x ∈ ipsAt i l ↔ ∃ v, v ∈ l ∧ levelChoices (lvlKey v) = some i ∧ x ∈ vIPs v := by
  simp [ipsAt, List.mem_flatMap, List.mem_filter, decide_eq_true_eq, and_assoc]

/-! ## `mapO` lemmas -/

theorem mapO_eq_none {α β : Type} (f : α → Option β) :
    ∀ (xs : List α) (x : α), x ∈ xs → f x = none → mapO f xs = none
  | [], x, hx, _ => absurd hx (List.not_mem_nil x)
  | y :: ys, x, hx, hfx => by
      rcases List.mem_cons.1 hx with rfl | hx'
      · simp [mapO, hfx]
      · cases hy : f y with
        | none => simp [mapO, hy]
        | some b => simp [mapO, hy, mapO_eq_none f ys x hx' hfx]

theorem mapO_eq_some_filterMap {α β : Type} (f : α → Option β) :
    ∀ xs : List α, (∀ x ∈ xs, (f x).isSome) → mapO f xs = some (xs.filterMap f)
  | [], _ => rfl
  | x :: xs, h => by
      obtain ⟨b, hb⟩ := Option.isSome_iff_exists.1 (h x (List.mem_cons_self x xs))
      rw [mapO, hb,
        mapO_eq_some_filterMap f xs (fun y hy => h y (List.mem_cons_of_mem _ hy))]
      simp [List.filterMap_cons, hb]

theorem mapO_eq_some_map {α β : Type} (f : α → Option β) (g : α → β) :
    ∀ xs : List α, (∀ x ∈ xs, f x = some (g x)) → mapO f xs = some (xs.map g)
  | [], _ => rfl
  | x :: xs, h => by
      rw [mapO, h x (List.mem_cons_self x xs),
        mapO_eq_some_map f g xs (fun y hy => h y (List.mem_cons_of_mem _ hy))]
      simp

/-! ## Count bridge -/

theorem countP_map_eq {α : Type} (f : α → String) (l : List α) (s : String) :
    (l.map f).countP (fun k => decide (k = s)) = l.countP (fun a => decide (f a = s)) := by
  induction l with
  | nil => rfl
  | cons x xs ih => simp [List.countP_cons, ih]

/-! ## Derived characterisations of the aggregation results -/

/-- A failed `_get_collections` call is exactly a failure of the loop. -/
theorem get_collections_none (l : List Vulnerability) :
    get_collections l = none ↔ foldO stepVuln initAggState (sortVulns l) = none := by
  unfold get_collections
  cases hf : foldO stepVuln initAggState (sortVulns l) <;> simp

theorem affected_le_all (l : List Vulnerability) (L : String) :
    (affectedIPs l L).card ≤ (allIPs l).card := by
  apply Finset.card_le_card
  intro x hx
  rw [affectedIPs, List.mem_toFinset, mem_ipsOfLevel] at hx
  obtain ⟨v, hv, -, hx⟩ := hx
  rw [allIPs, List.mem_toFinset, List.mem_flatMap]
  exact ⟨v, hv, hx⟩

theorem hostCounter_spec (l : List Vulnerability) (st : AggState)
    (hf : foldO stepVuln initAggState (sortVulns l) = some st)
    (L : String) (i : Fin 5)
    (hiff : ∀ s, levelChoices s = some i ↔ s = L)
    (hcg : counterGet (get_host_counter st.hostlists) L = (st.hostlists i).length) :
    counterGet (get_host_counter st.hostlists) L = (affectedIPs l L).card := by
  obtain ⟨-, -, h3⟩ := foldO_char _ _ _ hf
  rw [hcg, h3 i]
  have hi : initAggState.hostlists i = [] := rfl
  rw [hi, foldl_addFirst_length]
  congr 1
  apply Finset.ext
  intro x
  simp only [affectedIPs, List.mem_toFinset, mem_ipsAt, mem_ipsOfLevel]
  constructor
  · rintro ⟨v, hv, hvl, hx⟩
    exact ⟨v, (sortVulns_perm l).mem_iff.1 hv, (hiff _).1 hvl, hx⟩
  · rintro ⟨v, hv, hvl, hx⟩
    exact ⟨v, (sortVulns_perm l).mem_iff.2 hv, (hiff _).2 hvl, hx⟩

theorem vuln_levels_count (l : List Vulnerability) (r : Collections)
    (h : get_collections l = some r) (s : String) :
    counterGet r.vuln_levels s = l.countP (fun v => decide (lvlKey v = s)) := by
  obtain ⟨st, hf, -, hlv, -, -⟩ := get_collections_some h
  obtain ⟨h1, -, -⟩ := foldO_char _ _ _ hf
  rw [hlv, h1, counterGet_foldAdd, countP_map_eq]
  show 0 + _ = _
  rw [Nat.zero_add]
  exact (sortVulns_perm l).countP_eq _

/-! ## The claims -/

/-- C1: whenever `_get_collections` returns, `vuln_host_by_level` maps each of
the five levels `L` to the number of distinct host IPs that have at least one
(host, port) occurrence of some vulnerability classified at level `L` — an IP
with several occurrences or several vulnerabilities at the same level counts
once — and for every level that count is at most the number of distinct host
IPs appearing in the input. -/
theorem C1_affected_host_counts (l : List Vulnerability) (r : Collections)
    (h : get_collections l = some r) :
    ∀ L ∈ configLevels,
      counterGet r.vuln_host_by_level L = (affectedIPs l L).card ∧
      (affectedIPs l L).card ≤ (allIPs l).card := by
  intro L hL
  obtain ⟨st, hf, -, -, hbl, -⟩ := get_collections_some h
  refine ⟨?_, affected_le_all l L⟩
  rw [hbl]
  simp only [configLevels, List.mem_cons, List.not_mem_nil, or_false] at hL
  rcases hL with rfl | rfl | rfl | rfl | rfl
  · exact hostCounter_spec l st hf _ 0 levelChoices_critical rfl
  · exact hostCounter_spec l st hf _ 1 levelChoices_high rfl
  · exact hostCounter_spec l st hf _ 2 levelChoices_medium rfl
  · exact hostCounter_spec l st hf _ 3 levelChoices_low rfl
  · exact hostCounter_spec l st hf _ 4 levelChoices_none_lvl rfl

/-- Witness for C1 at a concrete input: two critical vulnerabilities touching
IPs 10.0.0.1 (twice) and 10.0.0.2 give a deduplicated critical host count
of 2. -/
theorem C1_affected_host_counts_w :
    counterGet aggCAB.vuln_host_by_level "critical"
        = (affectedIPs [vulnC, vulnA, vulnB] "critical").card ∧
    (affectedIPs [vulnC, vulnA, vulnB] "critical").card
        ≤ (allIPs [vulnC, vulnA, vulnB]).card :=
  C1_affected_host_counts [vulnC, vulnA, vulnB] aggCAB (by decide) "critical" (by decide)

/-- C2: the sequence returned by the aggregation is sorted by descending cvss,
and any two entries with equal cvss appear in ascending name order (the name
sort runs first, then the stable cvss sort). -/
theorem C2_sorted_output (l : List Vulnerability) (r : Collections)
    (h : get_collections l = some r) :
    List.Sorted cvssGe r.vuln_info ∧
    r.vuln_info.Pairwise (fun a b => a.cvss = b.cvss → nameLe a b) := by
  obtain ⟨st, -, hvi, -, -, -⟩ := get_collections_some h
  rw [hvi]
  have hs := sortVulns_sorted l
  constructor
  · refine hs.imp (fun {a b} hab => ?_)
    rcases hab with h' | ⟨h', -⟩
    · exact le_of_lt h'
    · exact le_of_eq h'.symm
  · refine hs.imp (fun {a b} hab heq => ?_)
    rcases hab with h' | ⟨-, hn⟩
    · exact absurd h' (by rw [heq]; exact lt_irrefl _)
    · exact hn

/-- Witness for C2 at a concrete input. -/
theorem C2_sorted_output_w :
    List.Sorted cvssGe aggCAB.vuln_info ∧
    aggCAB.vuln_info.Pairwise (fun a b => a.cvss = b.cvss → nameLe a b) :=
  C2_sorted_output [vulnC, vulnA, vulnB] aggCAB (by decide)

/-- C3: whenever `_get_collections` returns, `vuln_levels` counts
vulnerabilities, not occurrences: the entry at each (lowercased) level key is
the number of vulnerabilities with that key, and the values sum to the length
of the input list. -/
theorem C3_level_counts (l : List Vulnerability) (r : Collections)
    (h : get_collections l = some r) :
    counterSum r.vuln_levels = l.length ∧
    ∀ s, counterGet r.vuln_levels s = l.countP (fun v => decide (lvlKey v = s)) := by
  refine ⟨?_, vuln_levels_count l r h⟩
  obtain ⟨st, hf, -, hlv, -, -⟩ := get_collections_some h
  obtain ⟨h1, -, -⟩ := foldO_char _ _ _ hf
  rw [hlv, h1, counterSum_foldAdd]
  show 0 + _ = _
  rw [Nat.zero_add, List.length_map, (sortVulns_perm l).length_eq]

/-- Witness for C3 at a concrete input. -/
theorem C3_level_counts_w :
    counterSum aggCAB.vuln_levels = ([vulnC, vulnA, vulnB] : List Vulnerability).length ∧
    counterGet aggCAB.vuln_levels "critical"
      = ([vulnC, vulnA, vulnB] : List Vulnerability).countP
          (fun v => decide (lvlKey v = "critical")) :=
  ⟨(C3_level_counts [vulnC, vulnA, vulnB] aggCAB (by decide)).1,
   (C3_level_counts [vulnC, vulnA, vulnB] aggCAB (by decide)).2 "critical"⟩

/-- C4 counterexample: `list.sort` reorders the caller's list in place, so
after the call the caller's sequence (returned as `vuln_info`) is not the
original order: on `[vulnC, vulnA]` it comes back as `[vulnA, vulnC]`. -/
theorem C4_no_mutation_cex :
    (get_collections [vulnC, vulnA]).map Collections.vuln_info = some [vulnA, vulnC] ∧
    (get_collections [vulnC, vulnA]).map Collections.vuln_info ≠ some [vulnC, vulnA] := by
  decide

/-- C4 (amended): the aggregation sorts the caller's list in place; after the
call the caller's sequence is the returned sequence itself — the two-key
sorted permutation of the original input — rather than the original order. -/
theorem C4_inplace_sort (l : List Vulnerability) (r : Collections)
    (h : get_collections l = some r) :
    r.vuln_info = sortVulns l ∧ List.Perm r.vuln_info l := by
  obtain ⟨st, -, hvi, -, -, -⟩ := get_collections_some h
  exact ⟨hvi, hvi ▸ sortVulns_perm l⟩

/-- Witness for the amended C4 at a concrete input. -/
theorem C4_inplace_sort_w :
    aggCA.vuln_info = sortVulns [vulnC, vulnA] ∧
    List.Perm aggCA.vuln_info [vulnC, vulnA] :=
  C4_inplace_sort [vulnC, vulnA] aggCA (by decide)

/-- C5: evaluation at the failing input.  `export_to_csv_by_host` iterates the
registry mapping itself (its keys) and `isinstance`-checks those keys against
`Host`, so a registry whose every entry is a `Host` still raises `TypeError`
as soon as it is non-empty; the vulnerability-side guard of
`export_to_excel_by_vuln` accepts a list of vulnerabilities. -/
theorem C5_csv_by_host_guard_bug :
    ([("key1", PyObj.host hostA)].all (fun e => e.2.isHost)) = true ∧
    csv_by_host_raises (PyVal.tree [("key1", PyObj.host hostA)]) = true ∧
    excel_by_vuln_raises (PyVal.list [PyObj.vuln vulnA]) = false := by
  decide

/-- C6: the empty vulnerability list is not an error: the aggregation returns
an empty sorted sequence, a levels counter whose every lookup is 0, a host
counter whose every lookup is 0, and an empty family counter. -/
theorem C6_empty_input :
    ∃ r, get_collections [] = some r ∧ r.vuln_info = [] ∧
      (∀ s, counterGet r.vuln_levels s = 0) ∧
      (∀ s, counterGet r.vuln_host_by_level s = 0) ∧
      r.vuln_by_family = [] := by
  refine ⟨⟨[], [], [("critical", 0), ("high", 0), ("medium", 0), ("low", 0), ("none", 0)], []⟩,
    rfl, rfl, fun s => rfl, fun s => ?_, rfl⟩
  show counterGet [("critical", 0), ("high", 0), ("medium", 0), ("low", 0), ("none", 0)] s = 0
  simp only [counterGet]
  split_ifs <;> rfl

/-- C7: the two-key sort is idempotent: on a list already in the combined
sorted order (cvss descending, ascending names on equal cvss) it returns the
list unchanged. -/
theorem C7_sort_idempotent (l : List Vulnerability)
    (h1 : List.Sorted cvssGe l)
    (h2 : l.Pairwise (fun a b => a.cvss = b.cvss → nameLe a b)) :
    sortVulns l = l := by
  have hlex : List.Sorted lexLe l := by
    refine (List.Pairwise.and h1 h2).imp (fun {a b} hab => ?_)
    rcases lt_or_eq_of_le hab.1 with h' | h'
    · exact Or.inl h'
    · exact Or.inr ⟨h'.symm, hab.2 h'.symm⟩
  rw [sortVulns_eq_lex]
  exact hlex.insertionSort_eq

/-- Witness for C7 at a concrete already-sorted input. -/
theorem C7_sort_idempotent_w :
    sortVulns [vulnA, vulnB, vulnC] = [vulnA, vulnB, vulnC] :=
  C7_sort_idempotent [vulnA, vulnB, vulnC] (by decide) (by decide)

/-- C9: the aggregation fails exactly on inputs containing a vulnerability
whose lowercased level is outside the five names and which has at least one
occurrence; such a vulnerability without occurrences is instead silently
counted under its unknown level key. -/
theorem C9_unknown_levels (l : List Vulnerability) :
    (get_collections l = none ↔
      ∃ v ∈ l, levelChoices (lvlKey v) = none ∧ v.hosts ≠ []) ∧
    (∀ r, get_collections l = some r → ∀ v ∈ l, levelChoices (lvlKey v) = none →
      1 ≤ counterGet r.vuln_levels (lvlKey v)) := by
  constructor
  · rw [get_collections_none, foldO_eq_none]
    constructor
    · rintro ⟨v, hv, hc⟩
      exact ⟨v, (sortVulns_perm l).mem_iff.1 hv, hc⟩
    · rintro ⟨v, hv, hc⟩
      exact ⟨v, (sortVulns_perm l).mem_iff.2 hv, hc⟩
  · intro r h v hv _
    rw [vuln_levels_count l r h]
    have hpos : 0 < l.countP (fun w => decide (lvlKey w = lvlKey v)) :=
      List.countP_pos_iff.2 ⟨v, hv, by simp⟩
    omega

/-- Witness for C9: a hosted vulnerability with level "weird" aborts the
aggregation, while a host-less one is counted under the key "weird". -/
theorem C9_unknown_levels_w :
    get_collections [vulnBadHosted] = none ∧
    1 ≤ counterGet aggBadBare.vuln_levels (lvlKey vulnBadBare) :=
  ⟨(C9_unknown_levels [vulnBadHosted]).1.mpr
      ⟨vulnBadHosted, by decide, by decide, by decide⟩,
   (C9_unknown_levels [vulnBadBare]).2 aggBadBare (by decide) vulnBadBare
      (by decide) (by decide)⟩

/-- C10: on a successful aggregation, `export_to_csv_by_vuln` raises while
building the row of any occurrence whose port is absent, and otherwise emits
one row per (host, port) occurrence in sorted-vulnerability order. -/
theorem C10_csv_port_required (l : List Vulnerability) (c : Collections)
    (h : get_collections l = some c) :
    ((∃ v ∈ l, ∃ hp ∈ v.hosts, hp.2 = none) → export_to_csv_by_vuln l = none) ∧
    ((∀ v ∈ l, ∀ hp ∈ v.hosts, (hp.2).isSome) →
      export_to_csv_by_vuln l
        = some (c.vuln_info.flatMap (fun v => v.hosts.filterMap (rowOfOccurrence v)))) := by
  obtain ⟨st, hf, hvi, -, -, -⟩ := get_collections_some h
  constructor
  · rintro ⟨v, hv, hp, hhp, hnone⟩
    have hv' : v ∈ c.vuln_info := by
      rw [hvi]
      exact (sortVulns_perm l).mem_iff.2 hv
    have hinner : mapO (rowOfOccurrence v) v.hosts = none :=
      mapO_eq_none _ v.hosts hp hhp (by simp [rowOfOccurrence, hnone])
    have houter :
        mapO (fun v => mapO (rowOfOccurrence v) v.hosts) c.vuln_info = none :=
      mapO_eq_none _ _ v hv' hinner
    unfold export_to_csv_by_vuln
    rw [h]
    show Option.map List.flatten
        (mapO (fun v => mapO (rowOfOccurrence v) v.hosts) c.vuln_info) = none
    rw [houter]
    rfl
  · intro hall
    have houter :
        mapO (fun v => mapO (rowOfOccurrence v) v.hosts) c.vuln_info
          = some (c.vuln_info.map (fun v => v.hosts.filterMap (rowOfOccurrence v))) := by
      apply mapO_eq_some_map
      intro v hv
      apply mapO_eq_some_filterMap
      intro hp hhp
      have hpS : (hp.2).isSome := by
        refine hall v ?_ hp hhp
        rw [hvi] at hv
        exact (sortVulns_perm l).mem_iff.1 hv
      cases hp2 : hp.2 with
      | none => rw [hp2] at hpS; cases hpS
      | some p => simp [rowOfOccurrence, hp2]
    unfold export_to_csv_by_vuln
    rw [h]
    show Option.map List.flatten
        (mapO (fun v => mapO (rowOfOccurrence v) v.hosts) c.vuln_info)
      = some (c.vuln_info.flatMap (fun v => v.hosts.filterMap (rowOfOccurrence v)))
    rw [houter]
    rfl

/-- Witness for C10: the port-less occurrence aborts the CSV export, and an
all-ported input yields its row list. -/
theorem C10_csv_port_required_w :
    export_to_csv_by_vuln [vulnNoPort] = none ∧
    export_to_csv_by_vuln [vulnA]
      = some (aggA.vuln_info.flatMap (fun v => v.hosts.filterMap (rowOfOccurrence v))) :=
  ⟨(C10_csv_port_required [vulnNoPort]
        ⟨[vulnNoPort], [("low", 1)],
         [("critical", 0), ("high", 0), ("medium", 0), ("low", 1), ("none", 0)],
         [("F", 1)]⟩ (by decide)).1
      ⟨vulnNoPort, by decide, (hostA, none), by decide, rfl⟩,
   (C10_csv_port_required [vulnA] aggA (by decide)).2 (by decide)⟩

/-- C8 counterexample: the family counter's iteration order follows first
appearance in the *sorted* sequence, not in the caller's original input
order: on `[vulnC, vulnB]` (families F then G in input order) the counter
iterates as G, F. -/
theorem C8_family_order_cex :
    (get_collections [vulnC, vulnB]).map (fun r => r.vuln_by_family.map Prod.fst)
        = some ["G", "F"] ∧
    firstSeen ([vulnC, vulnB].map (fun v => v.family)) = ["F", "G"] ∧
    (get_collections [vulnC, vulnB]).map (fun r => r.vuln_by_family.map Prod.fst)
        ≠ some (firstSeen ([vulnC, vulnB].map (fun v => v.family))) := by
  decide

/-- C8 (amended): whenever `_get_collections` returns, `vuln_by_family` maps
each family to the number of vulnerabilities (not occurrences) with that
family, and its iteration order is the order of first appearance of each
family in the sorted sequence (equivalently, in the caller's list after the
in-place sort), not in the original input order. -/
theorem C8_family_counts (l : List Vulnerability) (r : Collections)
    (h : get_collections l = some r) :
    (∀ s, counterGet r.vuln_by_family s = l.countP (fun v => decide (v.family = s))) ∧
    r.vuln_by_family.map Prod.fst = firstSeen ((sortVulns l).map (fun v => v.family)) := by
  obtain ⟨st, hf, -, -, -, hfam⟩ := get_collections_some h
  obtain ⟨-, h2, -⟩ := foldO_char _ _ _ hf
  constructor
  · intro s
    rw [hfam, h2, counterGet_foldAdd, countP_map_eq]
    show 0 + _ = _
    rw [Nat.zero_add]
    exact (sortVulns_perm l).countP_eq _
  · rw [hfam, h2, counterKeys_foldAdd]
    rfl

/-- Witness for the amended C8 at a concrete input. -/
theorem C8_family_counts_w :
    counterGet aggCAB.vuln_by_family "F"
        = ([vulnC, vulnA, vulnB] : List Vulnerability).countP
            (fun v => decide (v.family = "F")) ∧
    aggCAB.vuln_by_family.map Prod.fst
        = firstSeen ((sortVulns [vulnC, vulnA, vulnB]).map (fun v => v.family)) :=
  ⟨(C8_family_counts [vulnC, vulnA, vulnB] aggCAB (by decide)).1 "F",
   (C8_family_counts [vulnC, vulnA, vulnB] aggCAB (by decide)).2⟩

end OpenvasReporting
